import Mathlib

/-!
Verification of the pin/port virtualization layer of the Mcucpp repository
(pin lists over GPIO ports, scatter/gather codec, slices, const fast path).

The repository ships only the test suite (`src/tests/PinlistTests/main.cpp`)
and an example; the library headers `iopins.h` / `pinlist.h` are not in the
source tree.  The definitions below are therefore modelled from the design
specification, with the in-repository tests as the authority on observable
behaviour.  Registers are natural numbers read bitwise (`Nat.testBit`);
ports are identified by a natural-number id (the tests use ids 'A' and 'B',
modelled as 0 and 1).
-/

namespace Mcucpp

/-- Modelled from the spec: a Pin from the missing `iopins.h`, a
(Register Port reference, bit position) pair.  Ports are referenced by id. -/
structure Pin where
  port : Nat
  bit : Nat
deriving DecidableEq, Repr

/-- Modelled from the spec: the three registers of a Register Port
(`TestPort` in the tests): output, direction and input. -/
structure PortState where
  out : Nat
  dir : Nat
  inp : Nat
deriving DecidableEq, Repr

/-- The global register state: every port id is mapped to its registers. -/
def State : Type := Nat → PortState

/-- Modelled from the spec: the direction constants `Port::In` / `Port::Out`. -/
inductive Direction where
  | In : Direction
  | Out : Direction
deriving DecidableEq

/-- Clear in `x` the bits selected by mask `m`, keeping every other bit:
the `reg &= ~mask` step of a read-modify-write on a fixed-width register
(`x ^^^ (x &&& m)` agrees with it bit for bit and is kernel-computable). -/
def maskClear (x m : Nat) : Nat :=
  x ^^^ (x &&& m)

/-- Modelled from the spec: the per-port scatter mask of the missing
`pinlist.h` codec — the OR of `1 <<< bit` over the pins of the list that
live on port `p`. -/
def portMask : List Pin → Nat → Nat
  | [], _ => 0
  | pin :: rest, p =>
      (if pin.port = p then 1 <<< pin.bit else 0) ||| portMask rest p

/-- Modelled from the spec: the per-port scattered value of the missing
`pinlist.h` codec — the OR of `(bit i of v) <<< physicalBit i` over the
logical indices `i` whose pin lives on port `p`. -/
def portValue : List Pin → Nat → Nat → Nat
  | [], _, _ => 0
  | pin :: rest, p, v =>
      (if pin.port = p then (v &&& 1) <<< pin.bit else 0) |||
        portValue rest p (v >>> 1)

/-- Modelled from the spec: the gather of the missing `pinlist.h` codec —
for each logical index `i` extract the bit of register `f port` at the
pin's physical position and place it at logical position `i`. -/
def gather : List Pin → (Nat → Nat) → Nat
  | [], _ => 0
  | pin :: rest, f =>
      ((f pin.port >>> pin.bit) &&& 1) ||| (gather rest f <<< 1)

/-- Modelled from the spec: `PinList::Write(value)` of the missing
`pinlist.h` — one read-modify-write transaction per port: bits in the
port's scatter mask become the scattered value, all other bits keep their
prior content (on a port with no member pins both mask and value are 0 and
the registers are unchanged). -/
def Write (pins : List Pin) (v : Nat) (s : State) : State :=
  fun p =>
    { s p with out := maskClear (s p).out (portMask pins p) ||| portValue pins p v }

/-- Modelled from the spec: `PinList::Read()` of the missing `pinlist.h` —
gather from each port's output register. -/
def Read (pins : List Pin) (s : State) : Nat :=
  gather pins (fun p => (s p).out)

/-- Modelled from the spec: `PinList::PinRead()` of the missing
`pinlist.h` — the same gather, sourced from each port's input register. -/
def PinRead (pins : List Pin) (s : State) : Nat :=
  gather pins (fun p => (s p).inp)

/-- Modelled from the spec: `PinList::Set(value)` of the missing
`pinlist.h` — `value` is a selector; the selected pins' output bits are
set, everything else is left unchanged (read-modify-write). -/
def Set (pins : List Pin) (m : Nat) (s : State) : State :=
  fun p => { s p with out := (s p).out ||| portValue pins p m }

/-- Modelled from the spec: `PinList::Clear(value)` of the missing
`pinlist.h` — `value` is a selector; the selected pins' output bits are
cleared, everything else is left unchanged (read-modify-write). -/
def Clear (pins : List Pin) (m : Nat) (s : State) : State :=
  fun p => { s p with out := maskClear (s p).out (portValue pins p m) }

/-- Modelled from the spec: `PinList::SetConfiguration(direction, mask)` of
the missing `pinlist.h` — read-modify-write the direction register, driving
the selected pins' direction bits to `Out` (1) or `In` (0). -/
def SetConfiguration (pins : List Pin) (d : Direction) (m : Nat) (s : State) : State :=
  fun p =>
    { s p with dir :=
        match d with
        | Direction.Out => (s p).dir ||| portValue pins p m
        | Direction.In => maskClear (s p).dir (portValue pins p m) }

instance : Inhabited Pin := ⟨⟨0, 0⟩⟩

/-- Replace the registers of the one port `p`, leaving every other port alone. -/
def updatePort (p : Nat) (f : PortState → PortState) (s : State) : State :=
  fun q => if q = p then f (s q) else s q

/-- Modelled from the spec: `Pin::Set()` of the missing `iopins.h` —
read-modify-write a single bit of the output register (OR the one-bit mask). -/
def PinSet (pin : Pin) (s : State) : State :=
  updatePort pin.port (fun st => { st with out := st.out ||| 1 <<< pin.bit }) s

/-- Modelled from the spec: `Pin::Clear()` of the missing `iopins.h` —
read-modify-write a single bit of the output register (AND-NOT the mask). -/
def PinClear (pin : Pin) (s : State) : State :=
  updatePort pin.port (fun st => { st with out := maskClear st.out (1 <<< pin.bit) }) s

/-- Modelled from the spec: `Pin::Toggle()` of the missing `iopins.h` —
read-modify-write a single bit of the output register (XOR the mask). -/
def PinToggle (pin : Pin) (s : State) : State :=
  updatePort pin.port (fun st => { st with out := st.out ^^^ 1 <<< pin.bit }) s

/-- Modelled from the spec: `Pin::Set(bool)` of the missing `iopins.h` —
`Set()` if the argument is true, else `Clear()`. -/
def PinSetBool (pin : Pin) (b : Bool) (s : State) : State :=
  if b then PinSet pin s else PinClear pin s

/-- Modelled from the spec: `Pin::SetDirWrite()` of the missing `iopins.h` —
read-modify-write a single bit of the direction register to 1. -/
def PinSetDirWrite (pin : Pin) (s : State) : State :=
  updatePort pin.port (fun st => { st with dir := st.dir ||| 1 <<< pin.bit }) s

/-- Modelled from the spec: `Pin::SetDirRead()` of the missing `iopins.h` —
read-modify-write a single bit of the direction register to 0. -/
def PinSetDirRead (pin : Pin) (s : State) : State :=
  updatePort pin.port (fun st => { st with dir := maskClear st.dir (1 <<< pin.bit) }) s

/-- Modelled from the spec: `Pin::SetDir(bool)` of the missing `iopins.h`. -/
def PinSetDirBool (pin : Pin) (b : Bool) (s : State) : State :=
  if b then PinSetDirWrite pin s else PinSetDirRead pin s

/-- Modelled from the spec: `Pin::SetConfiguration(direction)` of the missing
`iopins.h` — drive the pin's direction bit to `Out` (1) or `In` (0). -/
def PinSetConfiguration (pin : Pin) (d : Direction) (s : State) : State :=
  match d with
  | Direction.Out => PinSetDirWrite pin s
  | Direction.In => PinSetDirRead pin s

/-- Modelled from the spec: `Pin::IsSet()` of the missing `iopins.h` —
reads the input register and tests the pin's bit. -/
def PinIsSet (pin : Pin) (s : State) : Bool :=
  (s pin.port).inp.testBit pin.bit

/-- An operation on state `s` producing `t` touches at most the single bit
`(pin.port, pin.bit)`: every register bit of every port other than that one
bit is identical in `s` and `t`. -/
def FramePreserves (s t : State) (pin : Pin) : Prop :=
  ∀ q b, ¬(q = pin.port ∧ b = pin.bit) →
    (t q).out.testBit b = (s q).out.testBit b ∧
    (t q).dir.testBit b = (s q).dir.testBit b ∧
    (t q).inp.testBit b = (s q).inp.testBit b

/-- Modelled from the spec: the pin window of `PinList::Slice<start, count>`
of the missing `pinlist.h` — the `count` pins of the parent starting at
parent logical index `start`. -/
def slicePins (pins : List Pin) (start count : Nat) : List Pin :=
  (pins.drop start).take count

/-- Modelled from the spec: `Slice::Read()` of the missing `pinlist.h`.
Per the repository's tests (`TestOnePortPinList` on `Slice<5, 4>` expects
list value `0x1e0`, not `0xf`), a slice's operation values keep the parent's
logical bit positions: the gathered window is returned at positions
`start..start+count-1`. -/
def SliceRead (pins : List Pin) (start count : Nat) (s : State) : Nat :=
  Read (slicePins pins start count) s <<< start

/-- Modelled from the spec: `Slice::Write(value)` of the missing
`pinlist.h`; as with `SliceRead`, the value's bits for the window are taken
from parent logical positions `start..start+count-1`. -/
def SliceWrite (pins : List Pin) (start count : Nat) (v : Nat) (s : State) : State :=
  Write (slicePins pins start count) (v >>> start) s

/-- The distinct port ids referenced by a pin list, in first-occurrence order. -/
def portsOf (pins : List Pin) : List Nat :=
  (pins.map Pin.port).dedup

/-- Apply one per-port register transaction for each listed port. -/
def applyToPorts (f : Nat → PortState → PortState) : List Nat → State → State
  | [], s => s
  | p :: rest, s => applyToPorts f rest (updatePort p (f p) s)

/-- Modelled from the spec: the compile-time-constant fast path of
`PinList::Write<value>()` of the missing `pinlist.h` — the per-port scatter
mask and scattered value are precomputed constants and each affected port
gets exactly one register transaction applying them. -/
def ConstWrite (pins : List Pin) (v : Nat) (s : State) : State :=
  applyToPorts
    (fun p st => { st with out := maskClear st.out (portMask pins p) ||| portValue pins p v })
    (portsOf pins) s

/-- Modelled from the spec: the compile-time-constant fast path of
`PinList::Set<value>()` of the missing `pinlist.h`. -/
def ConstSet (pins : List Pin) (m : Nat) (s : State) : State :=
  applyToPorts
    (fun p st => { st with out := st.out ||| portValue pins p m })
    (portsOf pins) s

/-- Modelled from the spec: the compile-time-constant fast path of
`PinList::Clear<value>()` of the missing `pinlist.h`. -/
def ConstClear (pins : List Pin) (m : Nat) (s : State) : State :=
  applyToPorts
    (fun p st => { st with out := maskClear st.out (portValue pins p m) })
    (portsOf pins) s

/-- Modelled from the spec: the compile-time-constant fast path of
`PinList::SetConfiguration<direction, mask>()` of the missing `pinlist.h`. -/
def ConstSetConfiguration (pins : List Pin) (d : Direction) (m : Nat) (s : State) : State :=
  applyToPorts
    (fun p st =>
      { st with dir :=
          match d with
          | Direction.Out => st.dir ||| portValue pins p m
          | Direction.In => maskClear st.dir (portValue pins p m) })
    (portsOf pins) s

/-- Modelled from the spec: the pin list rebuilt from the indexed accessors
`PinList::Pin<0> .. Pin<N-1>` of the missing `pinlist.h` — the i-th
accessor returns the list's i-th pin. -/
def rebuildFromAccessors (pins : List Pin) : List Pin :=
  List.ofFn (fun i : Fin pins.length => pins.get i)

theorem testBit_one_shiftLeft (k b : Nat) :
    (1 <<< k).testBit b = decide (k = b) := by
  rw [Nat.one_shiftLeft, Nat.testBit_two_pow]

theorem testBit_and_one_zero (x : Nat) : (x &&& 1).testBit 0 = x.testBit 0 := by
  simp [Nat.testBit_and]

theorem testBit_mod_two_succ (x j : Nat) : (x % 2).testBit (j + 1) = false := by
  apply Nat.testBit_lt_two_pow
  calc x % 2 < 2 := Nat.mod_lt x (by omega)
    _ ≤ 2 ^ (j + 1) := Nat.le_self_pow (by omega) 2

theorem testBit_and_one_succ (x j : Nat) : (x &&& 1).testBit (j + 1) = false := by
  rw [Nat.and_one_is_mod]
  exact testBit_mod_two_succ x j

theorem testBit_and_one_shiftLeft (v k b : Nat) :
    ((v &&& 1) <<< k).testBit b = (decide (b = k) && v.testBit 0) := by
  rw [Nat.testBit_shiftLeft]
  by_cases h : b = k
  · subst h
    simp [Nat.sub_self, testBit_and_one_zero]
  · by_cases hk : k ≤ b
    · obtain ⟨n, hn⟩ : ∃ n, b - k = n + 1 := ⟨b - k - 1, by omega⟩
      simp [hk, hn, testBit_mod_two_succ, h]
    · simp [hk, h]

theorem testBit_portMask (pins : List Pin) (p b : Nat) :
    (portMask pins p).testBit b =
      pins.any (fun pin => pin.port == p && pin.bit == b) := by
  induction pins with
  | nil => simp [portMask]
  | cons pin rest ih =>
      rw [portMask, Nat.testBit_or, ih, List.any_cons]
      by_cases h : pin.port = p
      · rw [if_pos h, testBit_one_shiftLeft]
        by_cases hb : pin.bit = b
        · simp [h, hb]
        · simp [h, hb]
      · rw [if_neg h]
        simp [h]

theorem testBit_portValue (pins : List Pin) (p v b : Nat) :
    ((portValue pins p v).testBit b = true) ↔
      ∃ i, ∃ hi : i < pins.length,
        pins[i].port = p ∧ pins[i].bit = b ∧ v.testBit i = true := by
  induction pins generalizing v with
  | nil => simp [portValue]
  | cons pin rest ih =>
      constructor
      · intro hbit
        rw [portValue, Nat.testBit_or, Bool.or_eq_true] at hbit
        rcases hbit with h1 | h2
        · by_cases hp : pin.port = p
          · rw [if_pos hp, testBit_and_one_shiftLeft, Bool.and_eq_true,
              decide_eq_true_eq] at h1
            exact ⟨0, Nat.succ_pos _, hp, h1.1.symm, h1.2⟩
          · rw [if_neg hp] at h1
            simp at h1
        · obtain ⟨j, hj, hjp, hjb, hjv⟩ := (ih (v >>> 1)).1 h2
          refine ⟨j + 1, Nat.succ_lt_succ hj, by simpa using hjp, by simpa using hjb, ?_⟩
          rw [Nat.testBit_shiftRight] at hjv
          simpa [Nat.add_comm] using hjv
      · rintro ⟨i, hi, hp, hb, hv⟩
        rw [portValue, Nat.testBit_or, Bool.or_eq_true]
        cases i with
        | zero =>
            left
            simp only [List.getElem_cons_zero] at hp hb
            rw [if_pos hp, testBit_and_one_shiftLeft, hb]
            simp [hv]
        | succ j =>
            right
            refine (ih (v >>> 1)).2
              ⟨j, by simp only [List.length_cons] at hi; omega,
                by simpa using hp, by simpa using hb, ?_⟩
            rw [Nat.testBit_shiftRight, Nat.add_comm]
            exact hv

theorem testBit_gather (pins : List Pin) (f : Nat → Nat) (i : Nat)
    (hi : i < pins.length) :
    (gather pins f).testBit i = (f pins[i].port).testBit pins[i].bit := by
  induction pins generalizing i with
  | nil => simp at hi
  | cons pin rest ih =>
      cases i with
      | zero =>
          rw [gather, Nat.testBit_or]
          simp [Nat.testBit_shiftLeft, Nat.testBit_shiftRight, testBit_and_one_zero]
      | succ j =>
          have hj : j < rest.length := by simpa using hi
          rw [gather, Nat.testBit_or]
          simp [testBit_and_one_succ, testBit_mod_two_succ, Nat.testBit_shiftLeft, ih j hj]

theorem testBit_gather_ge (pins : List Pin) (f : Nat → Nat) (i : Nat)
    (hi : pins.length ≤ i) :
    (gather pins f).testBit i = false := by
  induction pins generalizing i with
  | nil => simp [gather]
  | cons pin rest ih =>
      cases i with
      | zero => simp at hi
      | succ j =>
          have hj : rest.length ≤ j := by simpa using hi
          rw [gather, Nat.testBit_or]
          simp [testBit_and_one_succ, testBit_mod_two_succ, Nat.testBit_shiftLeft, ih j hj]

theorem bool_eq_of_iff {a b : Bool} (h : a = true ↔ b = true) : a = b := by
  cases a <;> cases b <;> simp_all

theorem Pin.eq_of_fields {a b : Pin} (hp : a.port = b.port) (hb : a.bit = b.bit) :
    a = b := by
  cases a
  cases b
  simp_all

theorem testBit_maskClear (x m b : Nat) :
    (maskClear x m).testBit b = (x.testBit b && !(m.testBit b)) := by
  rw [maskClear, Nat.testBit_xor, Nat.testBit_and]
  cases x.testBit b <;> cases m.testBit b <;> rfl

theorem maskClear_zero (x : Nat) : maskClear x 0 = x := by
  simp [maskClear]

theorem testBit_portValue_at_pin (pins : List Pin) (hnd : pins.Nodup)
    (v i : Nat) (hi : i < pins.length) :
    (portValue pins pins[i].port v).testBit pins[i].bit = v.testBit i := by
  apply bool_eq_of_iff
  constructor
  · intro h
    obtain ⟨j, hj, hp, hb, hvj⟩ := (testBit_portValue pins pins[i].port v pins[i].bit).1 h
    have hpin : pins[j] = pins[i] := Pin.eq_of_fields hp hb
    have hji : j = i := (hnd.getElem_inj_iff).1 hpin
    exact hji ▸ hvj
  · intro h
    exact (testBit_portValue pins pins[i].port v pins[i].bit).2 ⟨i, hi, rfl, rfl, h⟩

theorem testBit_portMask_at_pin (pins : List Pin) (i : Nat) (hi : i < pins.length) :
    (portMask pins pins[i].port).testBit pins[i].bit = true := by
  rw [testBit_portMask, List.any_eq_true]
  exact ⟨pins[i], List.getElem_mem hi, by simp⟩

theorem testBit_portMask_not_mem (pins : List Pin) (p b : Nat)
    (h : ∀ pin ∈ pins, ¬(pin.port = p ∧ pin.bit = b)) :
    (portMask pins p).testBit b = false := by
  rw [testBit_portMask]
  rw [List.any_eq_false]
  intro pin hm
  simpa using h pin hm

theorem testBit_portValue_not_mem (pins : List Pin) (p v b : Nat)
    (h : ∀ pin ∈ pins, ¬(pin.port = p ∧ pin.bit = b)) :
    (portValue pins p v).testBit b = false := by
  cases hh : (portValue pins p v).testBit b with
  | false => rfl
  | true =>
      obtain ⟨j, hj, hp, hb, _⟩ := (testBit_portValue pins p v b).1 hh
      exact absurd ⟨hp, hb⟩ (h pins[j] (List.getElem_mem hj))

theorem portMask_eq_zero (pins : List Pin) (p : Nat)
    (h : ∀ pin ∈ pins, pin.port ≠ p) : portMask pins p = 0 := by
  induction pins with
  | nil => rfl
  | cons pin rest ih =>
      rw [portMask, if_neg (h pin (List.mem_cons_self pin rest)),
        ih (fun q hq => h q (List.mem_cons_of_mem pin hq))]
      rfl

theorem portValue_eq_zero (pins : List Pin) (p v : Nat)
    (h : ∀ pin ∈ pins, pin.port ≠ p) : portValue pins p v = 0 := by
  induction pins generalizing v with
  | nil => rfl
  | cons pin rest ih =>
      rw [portValue, if_neg (h pin (List.mem_cons_self pin rest)),
        ih (v >>> 1) (fun q hq => h q (List.mem_cons_of_mem pin hq))]
      rfl

theorem portValue_mod_two_pow (pins : List Pin) (p v : Nat) :
    portValue pins p (v % 2 ^ pins.length) = portValue pins p v := by
  apply Nat.eq_of_testBit_eq
  intro b
  apply bool_eq_of_iff
  rw [testBit_portValue, testBit_portValue]
  constructor
  · rintro ⟨i, hi, h1, h2, h3⟩
    rw [Nat.testBit_mod_two_pow, Bool.and_eq_true] at h3
    exact ⟨i, hi, h1, h2, h3.2⟩
  · rintro ⟨i, hi, h1, h2, h3⟩
    refine ⟨i, hi, h1, h2, ?_⟩
    rw [Nat.testBit_mod_two_pow]
    simp [hi, h3]

/-- C1: for every pin list without duplicated physical pins (duplicates are
undefined behaviour per the spec) and every value `v < 2 ^ Length`,
`Write(v)` followed by `Read()` returns `v`: the scatter into the per-port
output registers followed by the gather is the identity on `[0, 2^Length)`. -/
theorem write_read_roundTrip (pins : List Pin) (hnd : pins.Nodup)
    (v : Nat) (hv : v < 2 ^ pins.length) (s : State) :
    Read pins (Write pins v s) = v := by
  apply Nat.eq_of_testBit_eq
  intro i
  by_cases hi : i < pins.length
  · rw [Read, testBit_gather _ _ i hi]
    show ((Write pins v s) pins[i].port).out.testBit pins[i].bit = v.testBit i
    simp only [Write]
    rw [Nat.testBit_or, testBit_maskClear, testBit_portMask_at_pin pins i hi]
    simp only [Bool.not_true, Bool.and_false, Bool.false_or]
    exact testBit_portValue_at_pin pins hnd v i hi
  · have hge : pins.length ≤ i := Nat.le_of_not_lt hi
    rw [Read, testBit_gather_ge _ _ i hge]
    exact (Nat.testBit_lt_two_pow
      (lt_of_lt_of_le hv (Nat.pow_le_pow_right (by omega) hge))).symm

/-- Witness for C1: the one-port test list ordered {pin2, pin1, pin3, pin4,
pin6} written with 0x1f reads back 0x1f. -/
theorem write_read_roundTrip_witness :
    (([⟨0, 2⟩, ⟨0, 1⟩, ⟨0, 3⟩, ⟨0, 4⟩, ⟨0, 6⟩] : List Pin).Nodup ∧
        (0x1f : Nat) < 2 ^ ([⟨0, 2⟩, ⟨0, 1⟩, ⟨0, 3⟩, ⟨0, 4⟩, ⟨0, 6⟩] : List Pin).length) ∧
      Read [⟨0, 2⟩, ⟨0, 1⟩, ⟨0, 3⟩, ⟨0, 4⟩, ⟨0, 6⟩]
          (Write [⟨0, 2⟩, ⟨0, 1⟩, ⟨0, 3⟩, ⟨0, 4⟩, ⟨0, 6⟩] 0x1f (fun _ => ⟨0, 0, 0⟩)) = 0x1f :=
  ⟨⟨by decide, by decide⟩, write_read_roundTrip _ (by decide) _ (by decide) _⟩

/-- C2: `Write(v)` places bit `i` of `v` at the physical bit position of
the list's i-th pin on that pin's port; register bits belonging to no pin
of the list are unchanged; and on the ordered one-port list
{pin2, pin1, pin3, pin4, pin6}, writing 0x1f over an all-zero register
makes the port's output register 0x5e. -/
theorem write_bit_placement (pins : List Pin) (hnd : pins.Nodup) (v : Nat) (s : State) :
    (∀ i, ∀ hi : i < pins.length,
        ((Write pins v s) pins[i].port).out.testBit pins[i].bit = v.testBit i) ∧
    (∀ p b, (∀ pin ∈ pins, ¬(pin.port = p ∧ pin.bit = b)) →
        ((Write pins v s) p).out.testBit b = ((s p).out).testBit b) ∧
    ((Write [⟨0, 2⟩, ⟨0, 1⟩, ⟨0, 3⟩, ⟨0, 4⟩, ⟨0, 6⟩] 0x1f (fun _ => ⟨0, 0, 0⟩)) 0).out
      = 0x5e := by
  refine ⟨?_, ?_, by decide⟩
  · intro i hi
    simp only [Write]
    rw [Nat.testBit_or, testBit_maskClear, testBit_portMask_at_pin pins i hi]
    simp only [Bool.not_true, Bool.and_false, Bool.false_or]
    exact testBit_portValue_at_pin pins hnd v i hi
  · intro p b h
    simp only [Write]
    rw [Nat.testBit_or, testBit_maskClear, testBit_portMask_not_mem pins p b h,
      testBit_portValue_not_mem pins p v b h]
    simp

/-- Witness for C2 at the test list {pin2, pin1, pin3, pin4, pin6} with 0x1f. -/
theorem write_bit_placement_witness :
    ([⟨0, 2⟩, ⟨0, 1⟩, ⟨0, 3⟩, ⟨0, 4⟩, ⟨0, 6⟩] : List Pin).Nodup ∧
      ((Write [⟨0, 2⟩, ⟨0, 1⟩, ⟨0, 3⟩, ⟨0, 4⟩, ⟨0, 6⟩] 0x1f (fun _ => ⟨0, 0, 0⟩)) 0).out
        = 0x5e :=
  ⟨by decide,
    (write_bit_placement [⟨0, 2⟩, ⟨0, 1⟩, ⟨0, 3⟩, ⟨0, 4⟩, ⟨0, 6⟩] (by decide) 0x1f
      (fun _ => ⟨0, 0, 0⟩)).2.2⟩

/-- C7: if every port's input register holds the scatter of `v`, then
`PinRead()` returns `v`; and `PinRead` is exactly `Read` with each port's
output register replaced by its input register (same gather algorithm). -/
theorem pinRead_input_roundTrip (pins : List Pin) (hnd : pins.Nodup)
    (v : Nat) (hv : v < 2 ^ pins.length) (s : State)
    (hs : ∀ p, (s p).inp = portValue pins p v) :
    PinRead pins s = v ∧
      PinRead pins s = Read pins (fun p => { s p with out := (s p).inp }) := by
  constructor
  · apply Nat.eq_of_testBit_eq
    intro i
    by_cases hi : i < pins.length
    · rw [PinRead, testBit_gather _ _ i hi]
      show ((s pins[i].port).inp).testBit pins[i].bit = v.testBit i
      rw [hs]
      exact testBit_portValue_at_pin pins hnd v i hi
    · have hge : pins.length ≤ i := Nat.le_of_not_lt hi
      rw [PinRead, testBit_gather_ge _ _ i hge]
      exact (Nat.testBit_lt_two_pow
        (lt_of_lt_of_le hv (Nat.pow_le_pow_right (by omega) hge))).symm
  · rfl

/-- Witness for C7: the {pin2, pin1, pin3, pin4, pin6} list with input
registers scattered from 0x15 reads 0x15 through `PinRead`. -/
theorem pinRead_input_roundTrip_witness :
    (([⟨0, 2⟩, ⟨0, 1⟩, ⟨0, 3⟩, ⟨0, 4⟩, ⟨0, 6⟩] : List Pin).Nodup ∧
        (0x15 : Nat) < 2 ^ ([⟨0, 2⟩, ⟨0, 1⟩, ⟨0, 3⟩, ⟨0, 4⟩, ⟨0, 6⟩] : List Pin).length) ∧
      PinRead [⟨0, 2⟩, ⟨0, 1⟩, ⟨0, 3⟩, ⟨0, 4⟩, ⟨0, 6⟩]
          (fun p => ⟨0, 0, portValue [⟨0, 2⟩, ⟨0, 1⟩, ⟨0, 3⟩, ⟨0, 4⟩, ⟨0, 6⟩] p 0x15⟩)
        = 0x15 :=
  ⟨⟨by decide, by decide⟩,
    (pinRead_input_roundTrip _ (by decide) _ (by decide) _ (fun _ => rfl)).1⟩

/-- C8: every value or mask input of Write, Set, Clear and SetConfiguration
is silently truncated to the low `Length` bits: the result equals the
result for the value reduced modulo `2 ^ Length`. -/
theorem operations_truncate (pins : List Pin) (v m : Nat) (d : Direction) (s : State) :
    Write pins v s = Write pins (v % 2 ^ pins.length) s ∧
    Set pins m s = Set pins (m % 2 ^ pins.length) s ∧
    Clear pins m s = Clear pins (m % 2 ^ pins.length) s ∧
    SetConfiguration pins d m s = SetConfiguration pins d (m % 2 ^ pins.length) s := by
  refine ⟨?_, ?_, ?_, ?_⟩
  · funext p
    simp only [Write, portValue_mod_two_pow]
  · funext p
    simp only [Set, portValue_mod_two_pow]
  · funext p
    simp only [Clear, portValue_mod_two_pow]
  · cases d <;> funext p <;> simp only [SetConfiguration, portValue_mod_two_pow]

theorem testBit_or_one_shiftLeft_ne (x k b : Nat) (h : k ≠ b) :
    (x ||| 1 <<< k).testBit b = x.testBit b := by
  rw [Nat.testBit_or, testBit_one_shiftLeft]
  simp [h]

theorem testBit_maskClear_one_shiftLeft_ne (x k b : Nat) (h : k ≠ b) :
    (maskClear x (1 <<< k)).testBit b = x.testBit b := by
  rw [testBit_maskClear, testBit_one_shiftLeft]
  simp [h]

theorem testBit_xor_one_shiftLeft_ne (x k b : Nat) (h : k ≠ b) :
    (x ^^^ 1 <<< k).testBit b = x.testBit b := by
  rw [Nat.testBit_xor, testBit_one_shiftLeft]
  simp [h]

theorem updatePort_out_frame (pin : Pin) (g : Nat → Nat → Nat) (s : State)
    (hg : ∀ x b, pin.bit ≠ b → (g x (1 <<< pin.bit)).testBit b = x.testBit b) :
    FramePreserves s
      (updatePort pin.port (fun st => { st with out := g st.out (1 <<< pin.bit) }) s)
      pin := by
  intro q b hqb
  by_cases hq : q = pin.port
  · subst hq
    have hb : pin.bit ≠ b := fun h => hqb ⟨rfl, h.symm⟩
    have hupd : updatePort pin.port
          (fun st => { st with out := g st.out (1 <<< pin.bit) }) s pin.port
        = { s pin.port with out := g (s pin.port).out (1 <<< pin.bit) } := if_pos rfl
    rw [hupd]
    exact ⟨hg _ b hb, rfl, rfl⟩
  · have hupd : updatePort pin.port
          (fun st => { st with out := g st.out (1 <<< pin.bit) }) s q = s q := if_neg hq
    rw [hupd]
    exact ⟨rfl, rfl, rfl⟩

theorem updatePort_dir_frame (pin : Pin) (g : Nat → Nat → Nat) (s : State)
    (hg : ∀ x b, pin.bit ≠ b → (g x (1 <<< pin.bit)).testBit b = x.testBit b) :
    FramePreserves s
      (updatePort pin.port (fun st => { st with dir := g st.dir (1 <<< pin.bit) }) s)
      pin := by
  intro q b hqb
  by_cases hq : q = pin.port
  · subst hq
    have hb : pin.bit ≠ b := fun h => hqb ⟨rfl, h.symm⟩
    have hupd : updatePort pin.port
          (fun st => { st with dir := g st.dir (1 <<< pin.bit) }) s pin.port
        = { s pin.port with dir := g (s pin.port).dir (1 <<< pin.bit) } := if_pos rfl
    rw [hupd]
    exact ⟨rfl, hg _ b hb, rfl⟩
  · have hupd : updatePort pin.port
          (fun st => { st with dir := g st.dir (1 <<< pin.bit) }) s q = s q := if_neg hq
    rw [hupd]
    exact ⟨rfl, rfl, rfl⟩

/-- C9: every single-Pin operation (Set, Clear, Toggle, Set(bool),
SetDirRead, SetDirWrite, SetDir(bool), SetConfiguration) changes at most the
one bit `(pin.port, pin.bit)` of the register it targets: every other bit of
every register of every port is preserved, for every starting state. -/
theorem pin_ops_frame (pin : Pin) (bb : Bool) (d : Direction) (s : State) :
    FramePreserves s (PinSet pin s) pin ∧
    FramePreserves s (PinClear pin s) pin ∧
    FramePreserves s (PinToggle pin s) pin ∧
    FramePreserves s (PinSetBool pin bb s) pin ∧
    FramePreserves s (PinSetDirRead pin s) pin ∧
    FramePreserves s (PinSetDirWrite pin s) pin ∧
    FramePreserves s (PinSetDirBool pin bb s) pin ∧
    FramePreserves s (PinSetConfiguration pin d s) pin := by
  have hset := updatePort_out_frame pin (fun x m => x ||| m) s
    (fun x b hb => testBit_or_one_shiftLeft_ne x pin.bit b hb)
  have hclear := updatePort_out_frame pin (fun x m => maskClear x m) s
    (fun x b hb => testBit_maskClear_one_shiftLeft_ne x pin.bit b hb)
  have htoggle := updatePort_out_frame pin (fun x m => x ^^^ m) s
    (fun x b hb => testBit_xor_one_shiftLeft_ne x pin.bit b hb)
  have hdirw := updatePort_dir_frame pin (fun x m => x ||| m) s
    (fun x b hb => testBit_or_one_shiftLeft_ne x pin.bit b hb)
  have hdirr := updatePort_dir_frame pin (fun x m => maskClear x m) s
    (fun x b hb => testBit_maskClear_one_shiftLeft_ne x pin.bit b hb)
  refine ⟨hset, hclear, htoggle, ?_, hdirr, hdirw, ?_, ?_⟩
  · cases bb
    · exact hclear
    · exact hset
  · cases bb
    · exact hdirr
    · exact hdirw
  · cases d
    · exact hdirr
    · exact hdirw

/-- Witness for C9: `Pin::Set` on pin (port 0, bit 3) leaves bit 1 of the
output register of port 0 unchanged. -/
theorem pin_ops_frame_witness :
    ¬((0 : Nat) = 0 ∧ (1 : Nat) = 3) ∧
      ((PinSet ⟨0, 3⟩ (fun _ => ⟨5, 9, 6⟩)) 0).out.testBit 1 =
        (((fun _ => ⟨5, 9, 6⟩) : State) 0).out.testBit 1 :=
  ⟨by decide,
    ((pin_ops_frame ⟨0, 3⟩ true Direction.In (fun _ => ⟨5, 9, 6⟩)).1 0 1 (by decide)).1⟩

/-- C6 counterexample: on the single-pin list {(port 0, bit 0)} with the
output register starting at R = 1 and mask m = 1, `Set(1)` then `Clear(1)`
leaves the register at 0, not at R: the claimed identity for every starting
register state fails. -/
theorem set_clear_counterexample :
    ((Clear [⟨0, 0⟩] 1 (Set [⟨0, 0⟩] 1 (fun _ => ⟨1, 0, 0⟩))) 0).out = 0 ∧
      (((fun _ => ⟨1, 0, 0⟩) : State) 0).out = 1 := by
  constructor
  · decide
  · decide

/-- C6 amended: `Set(m)` then `Clear(m)` restores every port register state
exactly when the starting output registers are clear at all of the mask's
selected (scattered) bit positions — as in the repository tests, which write
0 first.  Non-selected bits never move; the selected bits are forced to 0 by
`Clear`, which is why a set starting bit is not restored. -/
theorem set_clear_roundTrip (pins : List Pin) (m : Nat) (s : State)
    (h : ∀ p, (s p).out &&& portValue pins p m = 0) :
    Clear pins m (Set pins m s) = s := by
  funext p
  have key : maskClear ((s p).out ||| portValue pins p m) (portValue pins p m)
      = (s p).out := by
    apply Nat.eq_of_testBit_eq
    intro b
    rw [testBit_maskClear, Nat.testBit_or]
    cases hb : (portValue pins p m).testBit b with
    | false => simp
    | true =>
        have h0 : ((s p).out &&& portValue pins p m).testBit b = false := by
          rw [h p]
          exact Nat.zero_testBit b
        rw [Nat.testBit_and, hb, Bool.and_true] at h0
        simp [h0]
  simp only [Clear, Set]
  rw [key]

/-- Witness for C6 (amended) on the list {(0,2), (0,1)} with mask 3 and
out registers starting at 0 (dir 5, inp 7 untouched). -/
theorem set_clear_roundTrip_witness :
    (∀ p, ((((fun _ => ⟨0, 5, 7⟩) : State)) p).out &&& portValue [⟨0, 2⟩, ⟨0, 1⟩] p 3 = 0) ∧
      Clear [⟨0, 2⟩, ⟨0, 1⟩] 3 (Set [⟨0, 2⟩, ⟨0, 1⟩] 3 ((fun _ => ⟨0, 5, 7⟩) : State)) =
        ((fun _ => ⟨0, 5, 7⟩) : State) :=
  ⟨fun _ => by simp, set_clear_roundTrip _ _ _ (fun _ => by simp)⟩

/-- C3 counterexample: on the 9-pin one-port parent over bits 0..8 with the
output register holding 0x1e0, the Slice(5, 4) read returns 0x1e0 — the
window's bits at their parent logical positions, exactly as the repository
test `TestOnePortPinList<...Slice<5, 4>>(0x1e0, 0x1e0)` expects — while the
claimed formula `(P.Read() >> start) & ((1 << count) - 1)` yields 0xf. -/
theorem slice_read_counterexample :
    SliceRead [⟨0, 0⟩, ⟨0, 1⟩, ⟨0, 2⟩, ⟨0, 3⟩, ⟨0, 4⟩, ⟨0, 5⟩, ⟨0, 6⟩, ⟨0, 7⟩, ⟨0, 8⟩]
        5 4 (fun _ => ⟨0x1e0, 0, 0⟩) = 0x1e0 ∧
      ((Read [⟨0, 0⟩, ⟨0, 1⟩, ⟨0, 2⟩, ⟨0, 3⟩, ⟨0, 4⟩, ⟨0, 5⟩, ⟨0, 6⟩, ⟨0, 7⟩, ⟨0, 8⟩]
            (fun _ => ⟨0x1e0, 0, 0⟩) >>> 5) &&& ((1 <<< 4) - 1)) = 0xf ∧
      (0x1e0 : Nat) ≠ 0xf := by
  refine ⟨by decide, by decide, by decide⟩

/-- C3 amended: for a valid window (start + count ≤ Length), the slice's
j-th pin is the parent's pin at index start + j, and the slice read equals
the parent read masked to the window at the parent's positions:
`S.Read() = P.Read() & (((1 << count) - 1) << start)` — values are not
re-based to bit 0. -/
theorem slice_read_window (pins : List Pin) (start count : Nat)
    (h : start + count ≤ pins.length) (s : State) :
    SliceRead pins start count s = Read pins s &&& (((1 <<< count) - 1) <<< start) ∧
      ∀ j, j < count → ∀ d : Pin,
        (slicePins pins start count).getD j d = pins.getD (start + j) d := by
  have hlen : (slicePins pins start count).length = count := by
    simp only [slicePins, List.length_take, List.length_drop]
    omega
  constructor
  · apply Nat.eq_of_testBit_eq
    intro c
    rw [SliceRead, Nat.testBit_shiftLeft, Nat.testBit_and, Nat.one_shiftLeft,
      Nat.testBit_shiftLeft, Nat.testBit_two_pow_sub_one]
    by_cases hc : start ≤ c
    · obtain ⟨j, rfl⟩ : ∃ j, c = start + j := ⟨c - start, by omega⟩
      have hsub : start + j - start = j := by omega
      rw [hsub]
      by_cases hjc : j < count
      · have hj1 : j < (slicePins pins start count).length := by
          rw [hlen]
          exact hjc
        have hj2 : start + j < pins.length := by omega
        have hel : (slicePins pins start count)[j] = pins[start + j] := by
          simp [slicePins]
        rw [Read, Read, testBit_gather _ _ j hj1, testBit_gather _ _ (start + j) hj2, hel]
        simp [Nat.le_add_right, hjc]
      · have hge : (slicePins pins start count).length ≤ j := by
          rw [hlen]
          omega
        rw [Read, testBit_gather_ge _ _ j hge]
        simp [hjc]
    · simp [hc]
  · intro j hj d
    have hj1 : j < (slicePins pins start count).length := by
      rw [hlen]
      omega
    have hj2 : start + j < pins.length := by omega
    rw [List.getD_eq_getElem?_getD, List.getD_eq_getElem?_getD,
      List.getElem?_eq_getElem hj1, List.getElem?_eq_getElem hj2]
    simp [slicePins]

/-- Witness for C3 (amended) at the test configuration: 9 pins on bits 0..8,
Slice(5, 4), output register 0x1e0. -/
theorem slice_read_window_witness :
    ((5 : Nat) + 4
        ≤ ([⟨0, 0⟩, ⟨0, 1⟩, ⟨0, 2⟩, ⟨0, 3⟩, ⟨0, 4⟩, ⟨0, 5⟩, ⟨0, 6⟩, ⟨0, 7⟩, ⟨0, 8⟩] :
            List Pin).length) ∧
      SliceRead [⟨0, 0⟩, ⟨0, 1⟩, ⟨0, 2⟩, ⟨0, 3⟩, ⟨0, 4⟩, ⟨0, 5⟩, ⟨0, 6⟩, ⟨0, 7⟩, ⟨0, 8⟩]
          5 4 (fun _ => ⟨0x1e0, 0, 0⟩)
        = Read [⟨0, 0⟩, ⟨0, 1⟩, ⟨0, 2⟩, ⟨0, 3⟩, ⟨0, 4⟩, ⟨0, 5⟩, ⟨0, 6⟩, ⟨0, 7⟩, ⟨0, 8⟩]
            (fun _ => ⟨0x1e0, 0, 0⟩) &&& (((1 <<< 4) - 1) <<< 5) :=
  ⟨by decide, (slice_read_window _ 5 4 (by decide) _).1⟩

theorem portMask_append (l1 l2 : List Pin) (p : Nat) :
    portMask (l1 ++ l2) p = portMask l1 p ||| portMask l2 p := by
  induction l1 with
  | nil => simp [portMask]
  | cons pin rest ih => simp [portMask, ih, Nat.or_assoc]

theorem portValue_append (l1 l2 : List Pin) (p v : Nat) :
    portValue (l1 ++ l2) p v
      = portValue l1 p v ||| portValue l2 p (v >>> l1.length) := by
  induction l1 generalizing v with
  | nil => simp [portValue]
  | cons pin rest ih =>
      have hs : v >>> (rest.length + 1) = (v >>> 1) >>> rest.length := by
        rw [Nat.add_comm, Nat.shiftRight_add]
      simp [portValue, List.length_cons, ih, hs, Nat.or_assoc]

/-- C5: a list split across two distinct ports updates each port
independently: Write, Set, Clear and SetConfiguration act on port `a`
exactly as the `a` sub-list alone does, and on port `b` exactly as the `b`
sub-list does with the value shifted past the `a` pins; in particular the
two-port test list written with 0xff drives both output registers to 0x0f. -/
theorem multiPort_independence (la lb : List Pin) (a b : Nat) (v : Nat) (s : State)
    (ha : ∀ pin ∈ la, pin.port = a) (hb : ∀ pin ∈ lb, pin.port = b) (hab : a ≠ b) :
    Write (la ++ lb) v s a = Write la v s a ∧
    Write (la ++ lb) v s b = Write lb (v >>> la.length) s b ∧
    Set (la ++ lb) v s a = Set la v s a ∧
    Set (la ++ lb) v s b = Set lb (v >>> la.length) s b ∧
    Clear (la ++ lb) v s a = Clear la v s a ∧
    Clear (la ++ lb) v s b = Clear lb (v >>> la.length) s b ∧
    (∀ d : Direction,
      SetConfiguration (la ++ lb) d v s a = SetConfiguration la d v s a ∧
      SetConfiguration (la ++ lb) d v s b = SetConfiguration lb d (v >>> la.length) s b) ∧
    ((Write ([⟨0, 1⟩, ⟨0, 3⟩, ⟨0, 2⟩, ⟨0, 0⟩, ⟨1, 1⟩, ⟨1, 3⟩, ⟨1, 2⟩, ⟨1, 0⟩] : List Pin)
        0xff (fun _ => ⟨0, 0, 0⟩)) 0).out = 0x0f ∧
    ((Write ([⟨0, 1⟩, ⟨0, 3⟩, ⟨0, 2⟩, ⟨0, 0⟩, ⟨1, 1⟩, ⟨1, 3⟩, ⟨1, 2⟩, ⟨1, 0⟩] : List Pin)
        0xff (fun _ => ⟨0, 0, 0⟩)) 1).out = 0x0f := by
  have hmb : portMask lb a = 0 :=
    portMask_eq_zero lb a (fun q hq => by rw [hb q hq]; exact hab.symm)
  have hvb : ∀ w, portValue lb a w = 0 :=
    fun w => portValue_eq_zero lb a w (fun q hq => by rw [hb q hq]; exact hab.symm)
  have hma : portMask la b = 0 :=
    portMask_eq_zero la b (fun q hq => by rw [ha q hq]; exact hab)
  have hva : ∀ w, portValue la b w = 0 :=
    fun w => portValue_eq_zero la b w (fun q hq => by rw [ha q hq]; exact hab)
  refine ⟨?_, ?_, ?_, ?_, ?_, ?_, ?_, by decide, by decide⟩
  · simp only [Write, portMask_append, portValue_append, hmb, hvb, Nat.or_zero]
  · simp only [Write, portMask_append, portValue_append, hma, hva, Nat.zero_or]
  · simp only [Set, portValue_append, hvb, Nat.or_zero]
  · simp only [Set, portValue_append, hva, Nat.zero_or]
  · simp only [Clear, portValue_append, hvb, Nat.or_zero]
  · simp only [Clear, portValue_append, hva, Nat.zero_or]
  · intro d
    cases d <;>
      exact ⟨by simp only [SetConfiguration, portValue_append, hvb, Nat.or_zero],
        by simp only [SetConfiguration, portValue_append, hva, Nat.zero_or]⟩

/-- Witness for C5 at the two-port test list {Pa1, Pa3, Pa2, Pa0} ++
{Pb1, Pb3, Pb2, Pb0} with value 0xff. -/
theorem multiPort_independence_witness :
    ((∀ pin ∈ ([⟨0, 1⟩, ⟨0, 3⟩, ⟨0, 2⟩, ⟨0, 0⟩] : List Pin), pin.port = 0) ∧
        (∀ pin ∈ ([⟨1, 1⟩, ⟨1, 3⟩, ⟨1, 2⟩, ⟨1, 0⟩] : List Pin), pin.port = 1) ∧
        (0 : Nat) ≠ 1) ∧
      ((Write ([⟨0, 1⟩, ⟨0, 3⟩, ⟨0, 2⟩, ⟨0, 0⟩, ⟨1, 1⟩, ⟨1, 3⟩, ⟨1, 2⟩, ⟨1, 0⟩] : List Pin)
          0xff (fun _ => ⟨0, 0, 0⟩)) 0).out = 0x0f :=
  ⟨⟨by decide, by decide, by decide⟩,
    (multiPort_independence [⟨0, 1⟩, ⟨0, 3⟩, ⟨0, 2⟩, ⟨0, 0⟩] [⟨1, 1⟩, ⟨1, 3⟩, ⟨1, 2⟩, ⟨1, 0⟩]
        0 1 0xff (fun _ => ⟨0, 0, 0⟩) (by decide) (by decide)
        (by decide)).2.2.2.2.2.2.2.1⟩

theorem applyToPorts_not_mem (f : Nat → PortState → PortState) (ps : List Nat) :
    ∀ (s : State) (q : Nat), q ∉ ps → applyToPorts f ps s q = s q := by
  induction ps with
  | nil => intro s q _; rfl
  | cons p rest ih =>
      intro s q hq
      have hqp : q ≠ p := fun hh => hq (hh ▸ List.mem_cons_self p rest)
      have hqr : q ∉ rest := fun hh => hq (List.mem_cons_of_mem p hh)
      have h1 : applyToPorts f (p :: rest) s q = (updatePort p (f p) s) q :=
        ih (updatePort p (f p) s) q hqr
      rw [h1]
      simp [updatePort, hqp]

theorem applyToPorts_mem (f : Nat → PortState → PortState) (ps : List Nat) :
    ps.Nodup → ∀ (s : State) (q : Nat), q ∈ ps → applyToPorts f ps s q = f q (s q) := by
  induction ps with
  | nil => intro _ s q hq; exact absurd hq (List.not_mem_nil q)
  | cons p rest ih =>
      intro hnd s q hq
      by_cases hqp : q = p
      · subst hqp
        have hqr : q ∉ rest := (List.nodup_cons.1 hnd).1
        have h1 : applyToPorts f (q :: rest) s q = (updatePort q (f q) s) q :=
          applyToPorts_not_mem f rest (updatePort q (f q) s) q hqr
        rw [h1]
        simp [updatePort]
      · have hqr : q ∈ rest := (List.mem_cons.1 hq).resolve_left hqp
        have h1 : applyToPorts f (p :: rest) s q = f q ((updatePort p (f p) s) q) :=
          ih (List.nodup_cons.1 hnd).2 (updatePort p (f p) s) q hqr
        rw [h1]
        simp [updatePort, hqp]

theorem mem_portsOf (pins : List Pin) (q : Nat) :
    q ∈ portsOf pins ↔ ∃ pin ∈ pins, pin.port = q := by
  simp [portsOf, List.mem_dedup, List.mem_map]

/-- C4: the compile-time-constant fast paths of Write, Set, Clear and
SetConfiguration (precomputed per-port masks and values applied in one
transaction per affected port) produce exactly the same final register
states as the runtime-argument paths, for every list, value, mask,
direction and starting state. -/
theorem const_fast_path_eq (pins : List Pin) (v m : Nat) (d : Direction) (s : State) :
    ConstWrite pins v s = Write pins v s ∧
    ConstSet pins m s = Set pins m s ∧
    ConstClear pins m s = Clear pins m s ∧
    ConstSetConfiguration pins d m s = SetConfiguration pins d m s := by
  have hnd : (portsOf pins).Nodup := List.nodup_dedup _
  have hnotmem : ∀ q, q ∉ portsOf pins → ∀ pin ∈ pins, pin.port ≠ q := by
    intro q hq pin hpin hcon
    exact hq ((mem_portsOf pins q).2 ⟨pin, hpin, hcon⟩)
  refine ⟨?_, ?_, ?_, ?_⟩
  · funext q
    by_cases hq : q ∈ portsOf pins
    · rw [ConstWrite, applyToPorts_mem _ _ hnd s q hq]
      rfl
    · rw [ConstWrite, applyToPorts_not_mem _ _ s q hq]
      simp only [Write, portMask_eq_zero pins q (hnotmem q hq),
        portValue_eq_zero pins q v (hnotmem q hq), maskClear_zero, Nat.or_zero]
  · funext q
    by_cases hq : q ∈ portsOf pins
    · rw [ConstSet, applyToPorts_mem _ _ hnd s q hq]
      rfl
    · rw [ConstSet, applyToPorts_not_mem _ _ s q hq]
      simp only [Set, portValue_eq_zero pins q m (hnotmem q hq), Nat.or_zero]
  · funext q
    by_cases hq : q ∈ portsOf pins
    · rw [ConstClear, applyToPorts_mem _ _ hnd s q hq]
      rfl
    · rw [ConstClear, applyToPorts_not_mem _ _ s q hq]
      simp only [Clear, portValue_eq_zero pins q m (hnotmem q hq), maskClear_zero]
  · funext q
    by_cases hq : q ∈ portsOf pins
    · rw [ConstSetConfiguration, applyToPorts_mem _ _ hnd s q hq]
      rfl
    · rw [ConstSetConfiguration, applyToPorts_not_mem _ _ s q hq]
      cases d <;>
        simp only [SetConfiguration, portValue_eq_zero pins q m (hnotmem q hq),
          maskClear_zero, Nat.or_zero]

/-- C10: the pin list rebuilt from the indexed accessors
`Pin<0> .. Pin<N-1>` is the original list itself, so every operation
(Write, Read, PinRead, Set, Clear, SetConfiguration) produces identical
register states and identical return values. -/
theorem rebuild_equiv (pins : List Pin) (v m : Nat) (d : Direction) (s : State) :
    rebuildFromAccessors pins = pins ∧
    Write (rebuildFromAccessors pins) v s = Write pins v s ∧
    Read (rebuildFromAccessors pins) s = Read pins s ∧
    PinRead (rebuildFromAccessors pins) s = PinRead pins s ∧
    Set (rebuildFromAccessors pins) m s = Set pins m s ∧
    Clear (rebuildFromAccessors pins) m s = Clear pins m s ∧
    SetConfiguration (rebuildFromAccessors pins) d m s = SetConfiguration pins d m s := by
  have h : rebuildFromAccessors pins = pins := List.ofFn_get pins
  rw [h]
  exact ⟨rfl, rfl, rfl, rfl, rfl, rfl, rfl⟩

end Mcucpp
